import Mathlib

set_option linter.unusedSectionVars false

/-!
Verification of the cache system in `src/cache_system/include/LLZXLruCache.h`
(`namespace LLZXCache`): the recency-indexed LRU cache `LLZXLruCache` and the
history-gated LRU-K variant `LLZXLruKCache`.

Embedding conventions:
* The doubly-linked recency list with the two sentinel nodes `dummyHead_`,
  `dummyTail_` is embedded as the Lean list of the real nodes lying strictly
  between the sentinels, ordered from the node adjacent to `dummyHead_`
  (least recently used) to the node adjacent to `dummyTail_` (most recently
  used).  `nodeMap_` maps each key to its node; since its key set always
  equals the key set of the list, the map is embedded as key lookup in that
  list.
* C++ `int` fields (`capacity_`, `k_`) are embedded as `Int`; `size_t`
  values as `Nat`.  Where the code compares a `size_t` with an `int`
  (`nodeMap_.size() >= capacity_`, `historyCount >= k_`), the usual
  arithmetic conversion turns the `int` into a `size_t`; `asSizeT` embeds
  that conversion.
* `Value value{}` (value initialization) is embedded as `default`.
* The in/out reference parameter `Value& value` of `get` is embedded by
  passing the value in and returning the new value in the result.
-/

namespace LLZXCache

/-- The value of a C++ `int` after the usual arithmetic conversion to
`size_t` (unsigned 64-bit), as it happens in `nodeMap_.size() >= capacity_`
and `historyCount >= k_`. -/
def asSizeT (n : Int) : Nat := (n % (2 : Int) ^ 64).toNat

/-- `LruNode` of `LLZXLruCache.h` (lines 18–43): key, value and the access
counter `accessCount_`, which the constructor initializes to 1.  The list
pointers `prev_` / `next_` are represented by the node's position in the
embedded recency list. -/
structure LruNode (Key Value : Type) where
  key : Key
  value : Value
  accessCount : Nat
  deriving DecidableEq

/-- `LLZXLruCache` (lines 46–174): `capacity_` plus the recency list between
the sentinels (head of the Lean list = node adjacent to `dummyHead_`, the
least recently used; last = node adjacent to `dummyTail_`, the most recently
used).  `nodeMap_` is embedded as key lookup in this list. -/
structure LLZXLruCache (Key Value : Type) where
  capacity : Int
  entries : List (LruNode Key Value)
  deriving DecidableEq

namespace LLZXLruCache

variable {Key Value : Type} [DecidableEq Key] [Inhabited Value]

/-- `nodeMap_.find(key)`: the node stored under `key`, if any. -/
def findNode (c : LLZXLruCache Key Value) (key : Key) : Option (LruNode Key Value) :=
  c.entries.find? (fun n => decide (n.key = key))

/-- `removeNode` (lines 135–149): detach the node holding `key` from the
recency list. -/
def removeNode (entries : List (LruNode Key Value)) (key : Key) :
    List (LruNode Key Value) :=
  entries.eraseP (fun n => decide (n.key = key))

/-- `insertNode` (lines 152–158): attach a node directly before
`dummyTail_`, i.e. at the most-recently-used end. -/
def insertNode (entries : List (LruNode Key Value)) (node : LruNode Key Value) :
    List (LruNode Key Value) :=
  entries ++ [node]

/-- `moveToMostRecent` (lines 130–133): detach the node, re-attach at the
most-recently-used end. -/
def moveToMostRecent (entries : List (LruNode Key Value)) (node : LruNode Key Value) :
    List (LruNode Key Value) :=
  insertNode (removeNode entries node.key) node

/-- `updateExistingNode` (lines 110–114): `node->setValue(value)` then
`moveToMostRecent(node)`. -/
def updateExistingNode (c : LLZXLruCache Key Value) (node : LruNode Key Value)
    (value : Value) : LLZXLruCache Key Value :=
  { c with entries := moveToMostRecent c.entries { node with value := value } }

/-- `evictLeastRecent` (lines 160–165): remove `dummyHead_->next_` — the
first node of the embedded list — from the list and from `nodeMap_`. -/
def evictLeastRecent (c : LLZXLruCache Key Value) : LLZXLruCache Key Value :=
  match c.entries with
  | [] => c
  | leastRecent :: _ => { c with entries := removeNode c.entries leastRecent.key }

/-- `addNewNode` (lines 116–127): evict when `nodeMap_.size() >= capacity_`
(the `int` capacity is converted to `size_t` by the comparison), then create
a node with access count 1 and insert it at the most-recently-used end. -/
def addNewNode (c : LLZXLruCache Key Value) (key : Key) (value : Value) :
    LLZXLruCache Key Value :=
  let c1 := if asSizeT c.capacity ≤ c.entries.length then evictLeastRecent c else c
  { c1 with entries := insertNode c1.entries ⟨key, value, 1⟩ }

/-- `put` (lines 54–66): no-op when `capacity_ <= 0`; update and promote an
existing key, otherwise add a new node. -/
def put (c : LLZXLruCache Key Value) (key : Key) (value : Value) :
    LLZXLruCache Key Value :=
  if c.capacity ≤ 0 then c
  else
    match findNode c key with
    | some node => updateExistingNode c node value
    | none => addNewNode c key value

/-- `bool get(Key key, Value& value)` (lines 68–79).  On a hit the code calls
`updateExistingNode(it->second, value)`, which stores the caller's incoming
`value` into the node, and then reads `value = it->second->getValue()` back
from that same node  — so the returned value is the caller's incoming
argument, which has also replaced the stored value.  Result:
`(found, value after the call, cache after the call)`. -/
def get (c : LLZXLruCache Key Value) (key : Key) (value : Value) :
    Bool × Value × LLZXLruCache Key Value :=
  match findNode c key with
  | some node =>
      let c1 := updateExistingNode c node value
      (true, value, c1)
  | none => (false, value, c)

/-- `Value get(Key key)` (lines 81–87): `Value value{}` then the two-argument
`get`; returns the resulting value and cache. -/
def getOne (c : LLZXLruCache Key Value) (key : Key) :
    Value × LLZXLruCache Key Value :=
  let r := get c key default
  (r.2.1, r.2.2)

/-- `remove` (lines 90–99): detach the node and erase it from `nodeMap_`;
no-op when the key is absent. -/
def remove (c : LLZXLruCache Key Value) (key : Key) : LLZXLruCache Key Value :=
  match findNode c key with
  | some node => { c with entries := removeNode c.entries node.key }
  | none => c

/-- Modelled from the spec: the constructor of `LLZXLruCache` is absent from
the header (it is invoked as `LLZXLruCache<Key, Value>(capacity)` by the
`LLZXLruKCache` constructor, line 182, but never declared); per the spec,
capacity is fixed at construction and the cache starts empty. -/
def mkCache (capacity : Int) : LLZXLruCache Key Value :=
  { capacity := capacity, entries := [] }

end LLZXLruCache

/-! ### The sentinel wiring of `initializeList`

`initializeList` (lines 101–108) is embedded at the pointer level: the two
freshly constructed sentinel nodes and the two assignments
`dummyHead_->next_ = dummyTail_; dummyTail_->next_ = dummyHead_`. -/

/-- The two sentinel nodes created by `initializeList`. -/
inductive SentinelPtr where
  | dummyHead
  | dummyTail
  deriving DecidableEq

/-- The four pointer fields of the two sentinels.  A `prev_` field is a
`std::weak_ptr`, empty (`none`) on construction; a `next_` field is a
`std::shared_ptr`, null (`none`) on construction. -/
structure SentinelLinks where
  headPrev : Option SentinelPtr
  headNext : Option SentinelPtr
  tailPrev : Option SentinelPtr
  tailNext : Option SentinelPtr
  deriving DecidableEq

/-- `initializeList` (lines 101–108): both sentinels start with empty
pointers, then the code performs `dummyHead_->next_ = dummyTail_` (line 106)
and `dummyTail_->next_ = dummyHead_` (line 107).  No assignment touches
`dummyTail_->prev_`. -/
def initializeList : SentinelLinks :=
  { headPrev := none
    headNext := some SentinelPtr.dummyTail
    tailPrev := none
    tailNext := some SentinelPtr.dummyHead }

/-! ### The history-gated cache `LLZXLruKCache` (lines 177–251) -/

/-- `historyValueMap_.find(key)` on the association-list embedding of the
`std::unordered_map`. -/
def mapFind {Key Value : Type} [DecidableEq Key] (m : List (Key × Value))
    (key : Key) : Option Value :=
  (m.find? (fun p => decide (p.1 = key))).map Prod.snd

/-- `historyValueMap_[key] = value`: insert or overwrite. -/
def mapInsert {Key Value : Type} [DecidableEq Key] (m : List (Key × Value))
    (key : Key) (value : Value) : List (Key × Value) :=
  match m with
  | [] => [(key, value)]
  | p :: rest =>
      if p.1 = key then (p.1, value) :: rest else p :: mapInsert rest key value

/-- `historyValueMap_.erase(key)` / `erase(it)`: drop the entry for `key`. -/
def mapErase {Key Value : Type} [DecidableEq Key] (m : List (Key × Value))
    (key : Key) : List (Key × Value) :=
  m.eraseP (fun p => decide (p.1 = key))

/-- `LLZXLruKCache` (lines 177–251): the base-class subobject is the main
cache (`main`); `historyList_` is an `LLZXLruCache<Key, size_t>` of capacity
`historyCapacity`; `historyValueMap_` stages values of keys not yet
promoted; `k_` is the promotion threshold. -/
structure LLZXLruKCache (Key Value : Type) where
  k : Int
  historyList : LLZXLruCache Key Nat
  historyValueMap : List (Key × Value)
  main : LLZXLruCache Key Value
  deriving DecidableEq

namespace LLZXLruKCache

variable {Key Value : Type} [DecidableEq Key] [Inhabited Value]

/-- The `LLZXLruKCache` constructor (lines 181–185). -/
def mkCache (capacity historyCapacity k : Int) : LLZXLruKCache Key Value :=
  { k := k
    historyList := LLZXLruCache.mkCache historyCapacity
    historyValueMap := []
    main := LLZXLruCache.mkCache capacity }

/-- `LLZXLruKCache::put` (lines 223–246).  First probes the main cache with
`Value exitingValue{}` through the base-class two-argument `get` (which, on a
hit, overwrites the stored value with that default before the subsequent
`put` rewrites it).  On a main-cache miss it reads the history count through
`historyList_->get(key)` (the one-argument `get`), increments it, writes it
back, stages the value, and promotes when `historyCount >= k_` (a
`size_t`/`int` comparison). -/
def put (s : LLZXLruKCache Key Value) (key : Key) (value : Value) :
    LLZXLruKCache Key Value :=
  let r := LLZXLruCache.get s.main key (default : Value)
  let inMainCache := r.1
  let main1 := r.2.2
  if inMainCache then
    { s with main := LLZXLruCache.put main1 key value }
  else
    let h := LLZXLruCache.getOne s.historyList key
    let historyCount := h.1 + 1
    let hist1 := LLZXLruCache.put h.2 key historyCount
    let staging1 := mapInsert s.historyValueMap key value
    if asSizeT s.k ≤ historyCount then
      { s with
          historyList := LLZXLruCache.remove hist1 key
          historyValueMap := mapErase staging1 key
          main := LLZXLruCache.put main1 key value }
    else
      { s with historyList := hist1, historyValueMap := staging1, main := main1 }

/-- `LLZXLruKCache::get` (lines 187–221; its return type is spelled `Vaule`
in the header, an obvious misspelling of `Value`).  Probes the main cache
with `Value value{}`, unconditionally increments the history count, then on
a main-cache hit returns the probed value; otherwise, when
`historyCount >= k_` and a staged value exists, promotes it into the main
cache and returns it; otherwise returns the default. -/
def get (s : LLZXLruKCache Key Value) (key : Key) :
    Value × LLZXLruKCache Key Value :=
  let r := LLZXLruCache.get s.main key (default : Value)
  let inMainCache := r.1
  let value := r.2.1
  let main1 := r.2.2
  let h := LLZXLruCache.getOne s.historyList key
  let historyCount := h.1 + 1
  let hist1 := LLZXLruCache.put h.2 key historyCount
  if inMainCache then
    (value, { s with historyList := hist1, main := main1 })
  else if asSizeT s.k ≤ historyCount then
    match s.historyValueMap.find? (fun p => decide (p.1 = key)) with
    | some p =>
        (p.2, { s with
            historyList := LLZXLruCache.remove hist1 key
            historyValueMap := mapErase s.historyValueMap key
            main := LLZXLruCache.put main1 key p.2 })
    | none => (value, { s with historyList := hist1, main := main1 })
  else
    (value, { s with historyList := hist1, main := main1 })

end LLZXLruKCache

/-! ### Call traces -/

/-- One public call on an `LLZXLruCache`: `put`, the two-argument `get`
(with the caller's incoming in/out value), the one-argument `get`, or
`remove`. -/
inductive LruOp (Key Value : Type) where
  | put (key : Key) (value : Value)
  | get (key : Key) (value : Value)
  | getOne (key : Key)
  | remove (key : Key)

/-- Apply one public call to an `LLZXLruCache`. -/
def applyOp {Key Value : Type} [DecidableEq Key] [Inhabited Value]
    (c : LLZXLruCache Key Value) (op : LruOp Key Value) :
    LLZXLruCache Key Value :=
  match op with
  | LruOp.put key value => LLZXLruCache.put c key value
  | LruOp.get key value => (LLZXLruCache.get c key value).2.2
  | LruOp.getOne key => (LLZXLruCache.getOne c key).2
  | LruOp.remove key => LLZXLruCache.remove c key

/-- Apply a sequence of public calls, oldest first. -/
def applyOps {Key Value : Type} [DecidableEq Key] [Inhabited Value]
    (c : LLZXLruCache Key Value) (ops : List (LruOp Key Value)) :
    LLZXLruCache Key Value :=
  ops.foldl applyOp c

/-- One public call on an `LLZXLruKCache`: `put` or `get`. -/
inductive LruKOp (Key Value : Type) where
  | put (key : Key) (value : Value)
  | get (key : Key)

/-- Apply one public call to an `LLZXLruKCache`. -/
def applyKOp {Key Value : Type} [DecidableEq Key] [Inhabited Value]
    (s : LLZXLruKCache Key Value) (op : LruKOp Key Value) :
    LLZXLruKCache Key Value :=
  match op with
  | LruKOp.put key value => LLZXLruKCache.put s key value
  | LruKOp.get key => (LLZXLruKCache.get s key).2

/-- Apply a sequence of public calls, oldest first. -/
def applyKOps {Key Value : Type} [DecidableEq Key] [Inhabited Value]
    (s : LLZXLruKCache Key Value) (ops : List (LruKOp Key Value)) :
    LLZXLruKCache Key Value :=
  ops.foldl applyKOp s

/-- A key is present in the cache: some node of the recency list holds it.
Equivalently, the key is in `nodeMap_`. -/
abbrev LLZXLruCache.hasKey {Key Value : Type} (c : LLZXLruCache Key Value)
    (key : Key) : Prop :=
  ∃ n ∈ c.entries, n.key = key

/-- A key is present in the staging map `historyValueMap_`. -/
abbrev LLZXLruKCache.keyStaged {Key Value : Type} (s : LLZXLruKCache Key Value)
    (key : Key) : Prop :=
  ∃ p ∈ s.historyValueMap, p.1 = key

/-- The staging/tracking invariant of the history-gated cache: staging keys
are pairwise distinct, every staged key is tracked in `historyList_`, and no
staged key is simultaneously in the main cache. -/
def KInvariant {Key Value : Type} (s : LLZXLruKCache Key Value) : Prop :=
  (s.historyValueMap.map Prod.fst).Nodup ∧
  (∀ j, LLZXLruKCache.keyStaged s j → LLZXLruCache.hasKey s.historyList j) ∧
  (∀ j, LLZXLruKCache.keyStaged s j → ¬ LLZXLruCache.hasKey s.main j)

/-! ## Helper lemmas about the recency-indexed cache -/

/-- `asSizeT` is the identity on `int` values representable as `size_t`. -/
theorem asSizeT_eq_toNat {n : Int} (h1 : 0 ≤ n) (h2 : n < 2 ^ 64) :
    asSizeT n = n.toNat := by
  unfold asSizeT
  rw [Int.emod_eq_of_lt h1 h2]

namespace LLZXLruCache

variable {Key Value : Type} [DecidableEq Key] [Inhabited Value]

theorem findNode_eq_none_iff {c : LLZXLruCache Key Value} {key : Key} :
    findNode c key = none ↔ ¬ hasKey c key := by
  simp [findNode, hasKey, List.find?_eq_none]

theorem findNode_some_mem {c : LLZXLruCache Key Value} {key : Key}
    {node : LruNode Key Value} (h : findNode c key = some node) :
    node ∈ c.entries ∧ node.key = key := by
  refine ⟨List.mem_of_find?_eq_some h, ?_⟩
  simpa using List.find?_some h

theorem hasKey_of_findNode_some {c : LLZXLruCache Key Value} {key : Key}
    {node : LruNode Key Value} (h : findNode c key = some node) :
    hasKey c key :=
  ⟨node, (findNode_some_mem h).1, (findNode_some_mem h).2⟩

theorem length_moveToMostRecent {entries : List (LruNode Key Value)}
    {node : LruNode Key Value} (h : ∃ x ∈ entries, x.key = node.key) :
    (moveToMostRecent entries node).length = entries.length := by
  obtain ⟨x, hx, hkey⟩ := h
  have hlen :=
    List.length_eraseP_of_mem (p := fun n => decide (n.key = node.key)) hx
      (by simp [hkey])
  have hpos : 0 < entries.length :=
    List.length_pos.mpr (by rintro rfl; cases hx)
  simp only [moveToMostRecent, insertNode, removeNode, List.length_append,
    List.length_singleton, hlen]
  omega

theorem hasKey_moveToMostRecent {entries : List (LruNode Key Value)}
    {node : LruNode Key Value} (hex : ∃ x ∈ entries, x.key = node.key) (j : Key) :
    (∃ n ∈ moveToMostRecent entries node, n.key = j) ↔ ∃ n ∈ entries, n.key = j := by
  obtain ⟨x, hx, hxkey⟩ := hex
  simp only [moveToMostRecent, insertNode, removeNode]
  constructor
  · rintro ⟨n, hn, rfl⟩
    rcases List.mem_append.mp hn with h1 | h2
    · exact ⟨n, List.mem_of_mem_eraseP h1, rfl⟩
    · simp only [List.mem_singleton] at h2
      exact ⟨x, hx, by rw [hxkey, h2]⟩
  · rintro ⟨n, hn, rfl⟩
    by_cases hk : n.key = node.key
    · exact ⟨node, List.mem_append.mpr (Or.inr (by simp)), hk.symm⟩
    · exact ⟨n, List.mem_append.mpr
        (Or.inl ((List.mem_eraseP_of_neg (by simp [hk])).mpr hn)), rfl⟩

theorem get_miss_eq {c : LLZXLruCache Key Value} {key : Key} {v : Value}
    (h : findNode c key = none) : get c key v = (false, v, c) := by
  simp [get, h]

theorem get_fst_true_iff (c : LLZXLruCache Key Value) (key : Key) (v : Value) :
    (get c key v).1 = true ↔ hasKey c key := by
  unfold get
  cases hf : findNode c key with
  | none =>
      simpa using fun h => findNode_eq_none_iff.mp hf h
  | some node =>
      simpa using hasKey_of_findNode_some hf

theorem get_state_length (c : LLZXLruCache Key Value) (key : Key) (v : Value) :
    (get c key v).2.2.entries.length = c.entries.length := by
  unfold get
  cases hf : findNode c key with
  | none => rfl
  | some node =>
      obtain ⟨hmem, hkey⟩ := findNode_some_mem hf
      simpa [updateExistingNode] using
        length_moveToMostRecent ⟨node, hmem, by simp [hkey]⟩

theorem get_state_hasKey (c : LLZXLruCache Key Value) (key : Key) (v : Value)
    (j : Key) : hasKey (get c key v).2.2 j ↔ hasKey c j := by
  unfold get
  cases hf : findNode c key with
  | none => rfl
  | some node =>
      obtain ⟨hmem, hkey⟩ := findNode_some_mem hf
      simpa [updateExistingNode, hasKey] using
        @hasKey_moveToMostRecent Key Value _ _ c.entries
          { node with value := v } ⟨node, hmem, rfl⟩ j

theorem get_state_capacity (c : LLZXLruCache Key Value) (key : Key) (v : Value) :
    (get c key v).2.2.capacity = c.capacity := by
  unfold get
  cases hf : findNode c key <;> rfl

theorem getOne_state_eq (c : LLZXLruCache Key Value) (key : Key) :
    (getOne c key).2 = (get c key (default : Value)).2.2 := rfl

theorem evictLeastRecent_capacity (c : LLZXLruCache Key Value) :
    (evictLeastRecent c).capacity = c.capacity := by
  unfold evictLeastRecent
  cases c.entries <;> rfl

theorem addNewNode_capacity (c : LLZXLruCache Key Value) (key : Key) (v : Value) :
    (addNewNode c key v).capacity = c.capacity := by
  unfold addNewNode
  split
  · exact evictLeastRecent_capacity c
  · rfl

theorem put_capacity (c : LLZXLruCache Key Value) (key : Key) (v : Value) :
    (put c key v).capacity = c.capacity := by
  unfold put
  split
  · rfl
  · cases hf : findNode c key with
    | some node => rfl
    | none => exact addNewNode_capacity c key v

theorem remove_capacity (c : LLZXLruCache Key Value) (key : Key) :
    (remove c key).capacity = c.capacity := by
  unfold remove
  cases hf : findNode c key <;> rfl

theorem remove_length_le (c : LLZXLruCache Key Value) (key : Key) :
    (remove c key).entries.length ≤ c.entries.length := by
  unfold remove
  cases hf : findNode c key with
  | none => exact le_refl _
  | some node => exact List.length_eraseP_le _

theorem hasKey_remove_of_ne {c : LLZXLruCache Key Value} {key j : Key}
    (hne : j ≠ key) : hasKey (remove c key) j ↔ hasKey c j := by
  unfold remove
  cases hf : findNode c key with
  | none => rfl
  | some node =>
      obtain ⟨hmem, hkey⟩ := findNode_some_mem hf
      simp only [removeNode, hasKey]
      constructor
      · rintro ⟨n, hn, rfl⟩
        exact ⟨n, List.mem_of_mem_eraseP hn, rfl⟩
      · rintro ⟨n, hn, rfl⟩
        exact ⟨n, (List.mem_eraseP_of_neg (by simp [hkey, hne])).mpr hn, rfl⟩

theorem length_put_bound {c : LLZXLruCache Key Value} {key : Key} {v : Value}
    (hsm : c.capacity < 2 ^ 31)
    (hinv : c.entries.length ≤ c.capacity.toNat) :
    (put c key v).entries.length ≤ c.capacity.toNat := by
  unfold put
  split
  · exact hinv
  · rename_i hposc
    have hAs : asSizeT c.capacity = c.capacity.toNat :=
      asSizeT_eq_toNat (by omega) (by omega)
    cases hf : findNode c key with
    | some node =>
        obtain ⟨hmem, hkey⟩ := findNode_some_mem hf
        have hlen := @length_moveToMostRecent Key Value _ _ c.entries
          { node with value := v } ⟨node, hmem, rfl⟩
        simpa [updateExistingNode, hlen] using hinv
    | none =>
        unfold addNewNode
        simp only [hAs]
        split
        · rename_i hge
          have hlen : c.entries.length = c.capacity.toNat := le_antisymm hinv hge
          unfold evictLeastRecent
          cases hE : c.entries with
          | nil =>
              rw [hE] at hge
              simp only [List.length_nil, Nat.le_zero] at hge
              omega
          | cons hd tl =>
              have he : List.eraseP (fun n => decide (n.key = hd.key)) (hd :: tl)
                  = tl := by simp
              have h2 : c.entries.length = tl.length + 1 := by rw [hE]; rfl
              simp only [insertNode, removeNode, he, List.length_append,
                List.length_singleton]
              omega
        · rename_i hlt
          simp only [insertNode, List.length_append, List.length_singleton]
          omega

theorem hasKey_updateExistingNode {c : LLZXLruCache Key Value}
    {node : LruNode Key Value} {v : Value} (hmem : node ∈ c.entries) (j : Key) :
    hasKey (updateExistingNode c node v) j ↔ hasKey c j := by
  simpa [updateExistingNode, hasKey] using
    @hasKey_moveToMostRecent Key Value _ _ c.entries
      { node with value := v } ⟨node, hmem, rfl⟩ j

theorem evictLeastRecent_entries_subset (c : LLZXLruCache Key Value) :
    (evictLeastRecent c).entries ⊆ c.entries := by
  unfold evictLeastRecent
  cases hE : c.entries with
  | nil => rw [hE]; exact fun x hx => hx
  | cons hd tl => exact List.eraseP_subset _

theorem evictLeastRecent_length_le (c : LLZXLruCache Key Value) :
    (evictLeastRecent c).entries.length ≤ c.entries.length := by
  unfold evictLeastRecent
  cases hE : c.entries with
  | nil => simp [hE]
  | cons hd tl => exact List.length_eraseP_le _

theorem hasKey_addNewNode_subset {c : LLZXLruCache Key Value} {key j : Key}
    {v : Value} (h : hasKey (addNewNode c key v) j) : hasKey c j ∨ j = key := by
  unfold addNewNode at h
  obtain ⟨n, hn, hkeyj⟩ := h
  have hn2 : n ∈ (if asSizeT c.capacity ≤ c.entries.length then
      evictLeastRecent c else c).entries ∨ n = ⟨key, v, 1⟩ := by
    simpa [insertNode] using hn
  rcases hn2 with h1 | h2
  · left
    refine ⟨n, ?_, hkeyj⟩
    by_cases hc : asSizeT c.capacity ≤ c.entries.length
    · rw [if_pos hc] at h1
      exact evictLeastRecent_entries_subset c h1
    · rw [if_neg hc] at h1
      exact h1
  · right
    rw [h2] at hkeyj
    exact hkeyj.symm

theorem put_eq_updateExistingNode {c : LLZXLruCache Key Value} {key : Key}
    {v : Value} {node : LruNode Key Value} (hcap : ¬ c.capacity ≤ 0)
    (hf : findNode c key = some node) :
    put c key v = updateExistingNode c node v := by
  unfold put
  rw [if_neg hcap, hf]

theorem put_eq_addNewNode {c : LLZXLruCache Key Value} {key : Key} {v : Value}
    (hcap : ¬ c.capacity ≤ 0) (hf : findNode c key = none) :
    put c key v = addNewNode c key v := by
  unfold put
  rw [if_neg hcap, hf]

theorem hasKey_put_subset {c : LLZXLruCache Key Value} {key j : Key} {v : Value}
    (h : hasKey (put c key v) j) : hasKey c j ∨ j = key := by
  by_cases hcap : c.capacity ≤ 0
  · unfold put at h
    rw [if_pos hcap] at h
    exact Or.inl h
  · cases hf : findNode c key with
    | some node =>
        rw [put_eq_updateExistingNode hcap hf] at h
        exact Or.inl
          ((hasKey_updateExistingNode (findNode_some_mem hf).1 j).mp h)
    | none =>
        rw [put_eq_addNewNode hcap hf] at h
        exact hasKey_addNewNode_subset h

theorem hasKey_put_of_no_evict {c : LLZXLruCache Key Value} {key : Key}
    {v : Value} (hcap : ¬ c.capacity ≤ 0)
    (hlt : c.entries.length < asSizeT c.capacity) (j : Key) :
    hasKey (put c key v) j ↔ hasKey c j ∨ j = key := by
  cases hf : findNode c key with
  | some node =>
      rw [put_eq_updateExistingNode hcap hf,
        hasKey_updateExistingNode (findNode_some_mem hf).1 j]
      constructor
      · exact Or.inl
      · rintro (h | rfl)
        · exact h
        · exact hasKey_of_findNode_some hf
  | none =>
      rw [put_eq_addNewNode hcap hf]
      simp only [addNewNode, if_neg (by omega : ¬ asSizeT c.capacity ≤ c.entries.length)]
      constructor
      · rintro ⟨n, hn, rfl⟩
        have hn2 : n ∈ c.entries ∨ n = (⟨key, v, 1⟩ : LruNode Key Value) := by
          simpa [insertNode] using hn
        rcases hn2 with h1 | h2
        · exact Or.inl ⟨n, h1, rfl⟩
        · rw [h2]
          exact Or.inr rfl
      · rintro (⟨n, hn, rfl⟩ | hj)
        · exact ⟨n, by simp [insertNode, hn], rfl⟩
        · rw [hj]
          exact ⟨⟨key, v, 1⟩, by simp [insertNode], rfl⟩

theorem length_put_le (c : LLZXLruCache Key Value) (key : Key) (v : Value) :
    (put c key v).entries.length ≤ c.entries.length + 1 := by
  by_cases hcap : c.capacity ≤ 0
  · unfold put
    rw [if_pos hcap]
    omega
  · cases hf : findNode c key with
    | some node =>
        rw [put_eq_updateExistingNode hcap hf]
        have hlen := @length_moveToMostRecent Key Value _ _ c.entries
          { node with value := v } ⟨node, (findNode_some_mem hf).1, rfl⟩
        simp [updateExistingNode, hlen]
    | none =>
        rw [put_eq_addNewNode hcap hf]
        simp only [addNewNode, insertNode, List.length_append,
          List.length_singleton]
        split
        · have := evictLeastRecent_length_le c
          omega
        · omega

theorem get_false_state {c : LLZXLruCache Key Value} {key : Key} {v : Value}
    (h : (get c key v).1 = false) : (get c key v).2.2 = c := by
  cases hf : findNode c key with
  | some node => simp [get, hf] at h
  | none => simp [get_miss_eq hf]

theorem not_hasKey_of_get_false {c : LLZXLruCache Key Value} {key : Key}
    {v : Value} (h : (get c key v).1 = false) : ¬ hasKey c key := by
  intro hk
  rw [(get_fst_true_iff c key v).mpr hk] at h
  cases h

theorem find?_removeNode_self {entries : List (LruNode Key Value)} {key : Key}
    (hnd : (entries.map LruNode.key).Nodup) :
    (removeNode entries key).find? (fun n => decide (n.key = key)) = none := by
  induction entries with
  | nil => rfl
  | cons hd tl ih =>
      have hnd2 : (∀ x ∈ tl, ¬x.key = hd.key) ∧ (tl.map LruNode.key).Nodup := by
        simpa using hnd
      by_cases hk : hd.key = key
      · rw [removeNode, List.eraseP_cons_of_pos (by simp [hk])]
        rw [List.find?_eq_none]
        intro x hx
        simp only [decide_eq_true_eq]
        intro hxk
        exact hnd2.1 x hx (hxk.trans hk.symm)
      · rw [removeNode, List.eraseP_cons_of_neg (by simp [hk])]
        rw [List.find?_cons_of_neg _ (by simp [hk])]
        exact ih hnd2.2

end LLZXLruCache

theorem applyOp_capacity {Key Value : Type} [DecidableEq Key] [Inhabited Value]
    (c : LLZXLruCache Key Value) (op : LruOp Key Value) :
    (applyOp c op).capacity = c.capacity := by
  cases op with
  | put key value => exact LLZXLruCache.put_capacity c key value
  | get key value => exact LLZXLruCache.get_state_capacity c key value
  | getOne key => exact LLZXLruCache.get_state_capacity c key default
  | remove key => exact LLZXLruCache.remove_capacity c key

theorem applyOp_length_bound {Key Value : Type} [DecidableEq Key] [Inhabited Value]
    {c : LLZXLruCache Key Value} (op : LruOp Key Value)
    (hsm : c.capacity < 2 ^ 31) (hinv : c.entries.length ≤ c.capacity.toNat) :
    (applyOp c op).entries.length ≤ c.capacity.toNat := by
  cases op with
  | put key value => simpa [applyOp] using LLZXLruCache.length_put_bound hsm hinv
  | get key value =>
      simpa [applyOp, LLZXLruCache.get_state_length] using hinv
  | getOne key =>
      simpa [applyOp, LLZXLruCache.getOne, LLZXLruCache.get_state_length] using hinv
  | remove key =>
      exact le_trans (by simpa [applyOp] using LLZXLruCache.remove_length_le c key) hinv

/-! ### Association-list lemmas for the staging map -/

theorem keyStaged_mapInsert_iff {Key Value : Type} [DecidableEq Key]
    (m : List (Key × Value)) (key j : Key) (v : Value) :
    (∃ p ∈ mapInsert m key v, p.1 = j) ↔ (∃ p ∈ m, p.1 = j) ∨ j = key := by
  induction m with
  | nil => simp [mapInsert, eq_comm]
  | cons q rest ih =>
      by_cases hq : q.1 = key
      · simp only [mapInsert, if_pos hq]
        constructor
        · rintro ⟨p, hp, rfl⟩
          rcases List.mem_cons.mp hp with h1 | h2
          · rw [h1]
            exact Or.inr hq
          · exact Or.inl ⟨p, List.mem_cons_of_mem _ h2, rfl⟩
        · rintro (⟨p, hp, rfl⟩ | hj)
          · rcases List.mem_cons.mp hp with h1 | h2
            · refine ⟨(q.1, v), List.mem_cons_self _ _, ?_⟩
              rw [h1]
            · exact ⟨p, List.mem_cons_of_mem _ h2, rfl⟩
          · exact ⟨(q.1, v), List.mem_cons_self _ _, hq.trans hj.symm⟩
      · simp only [mapInsert, if_neg hq]
        constructor
        · rintro ⟨p, hp, rfl⟩
          rcases List.mem_cons.mp hp with h1 | h2
          · exact Or.inl ⟨p, by rw [h1]; exact List.mem_cons_self _ _, rfl⟩
          · rcases ih.mp ⟨p, h2, rfl⟩ with h3 | h3
            · obtain ⟨r, hr, hrr⟩ := h3
              exact Or.inl ⟨r, List.mem_cons_of_mem _ hr, hrr⟩
            · exact Or.inr h3
        · rintro (⟨p, hp, rfl⟩ | hj)
          · rcases List.mem_cons.mp hp with h1 | h2
            · exact ⟨p, by rw [h1]; exact List.mem_cons_self _ _, rfl⟩
            · obtain ⟨r, hr, hrr⟩ := ih.mpr (Or.inl ⟨p, h2, rfl⟩)
              exact ⟨r, List.mem_cons_of_mem _ hr, hrr⟩
          · obtain ⟨r, hr, hrr⟩ := ih.mpr (Or.inr hj)
            exact ⟨r, List.mem_cons_of_mem _ hr, hrr⟩

theorem nodup_keys_mapInsert {Key Value : Type} [DecidableEq Key]
    {m : List (Key × Value)} (key : Key) (v : Value)
    (h : (m.map Prod.fst).Nodup) :
    ((mapInsert m key v).map Prod.fst).Nodup := by
  induction m with
  | nil => simp [mapInsert]
  | cons q rest ih =>
      rw [List.map_cons] at h
      have h2 := List.nodup_cons.mp h
      by_cases hq : q.1 = key
      · simp only [mapInsert, if_pos hq, List.map_cons]
        exact List.nodup_cons.mpr ⟨h2.1, h2.2⟩
      · simp only [mapInsert, if_neg hq, List.map_cons]
        refine List.nodup_cons.mpr ⟨?_, ih h2.2⟩
        intro hmem
        obtain ⟨p, hp, hpq⟩ := List.mem_map.mp hmem
        rcases (keyStaged_mapInsert_iff rest key q.1 v).mp ⟨p, hp, hpq⟩ with h3 | h3
        · obtain ⟨r, hr, hrr⟩ := h3
          exact h2.1 (List.mem_map.mpr ⟨r, hr, hrr⟩)
        · exact hq h3

theorem keyStaged_mapErase_subset {Key Value : Type} [DecidableEq Key]
    {m : List (Key × Value)} {key j : Key}
    (h : ∃ p ∈ mapErase m key, p.1 = j) : ∃ p ∈ m, p.1 = j := by
  obtain ⟨p, hp, hpj⟩ := h
  exact ⟨p, List.mem_of_mem_eraseP hp, hpj⟩

theorem not_keyStaged_mapErase {Key Value : Type} [DecidableEq Key]
    {key : Key} {m : List (Key × Value)}
    (hnd : (m.map Prod.fst).Nodup) : ¬ ∃ p ∈ mapErase m key, p.1 = key := by
  induction m with
  | nil => simp [mapErase]
  | cons q rest ih =>
      rw [List.map_cons] at hnd
      have h2 := List.nodup_cons.mp hnd
      by_cases hq : q.1 = key
      · rw [mapErase, List.eraseP_cons_of_pos (by simp [hq])]
        rintro ⟨p, hp, hpk⟩
        exact h2.1 (List.mem_map.mpr ⟨p, hp, hpk.trans hq.symm⟩)
      · rw [mapErase, List.eraseP_cons_of_neg (by simp [hq])]
        rintro ⟨p, hp, hpk⟩
        rcases List.mem_cons.mp hp with h1 | h3
        · exact hq (h1 ▸ hpk)
        · exact ih h2.2 ⟨p, h3, hpk⟩

theorem nodup_keys_mapErase {Key Value : Type} [DecidableEq Key]
    (m : List (Key × Value)) (key : Key)
    (h : (m.map Prod.fst).Nodup) :
    ((mapErase m key).map Prod.fst).Nodup :=
  List.Nodup.sublist ((List.eraseP_sublist m).map Prod.fst) h

/-! ### Branch equations for the history-gated operations -/

theorem kput_in_main {Key Value : Type} [DecidableEq Key] [Inhabited Value]
    {s : LLZXLruKCache Key Value} {key : Key} {value : Value}
    (h : (LLZXLruCache.get s.main key (default : Value)).1 = true) :
    LLZXLruKCache.put s key value
      = { s with main := LLZXLruCache.put (LLZXLruCache.get s.main key (default : Value)).2.2 key value } := by
  simp [LLZXLruKCache.put, h]

theorem kput_stage {Key Value : Type} [DecidableEq Key] [Inhabited Value]
    {s : LLZXLruKCache Key Value} {key : Key} {value : Value}
    (h : (LLZXLruCache.get s.main key (default : Value)).1 = false)
    (h2 : ¬ asSizeT s.k ≤ (LLZXLruCache.getOne s.historyList key).1 + 1) :
    LLZXLruKCache.put s key value
      = { s with
          historyList := LLZXLruCache.put (LLZXLruCache.getOne s.historyList key).2 key ((LLZXLruCache.getOne s.historyList key).1 + 1)
          historyValueMap := mapInsert s.historyValueMap key value
          main := (LLZXLruCache.get s.main key (default : Value)).2.2 } := by
  simp [LLZXLruKCache.put, h, h2]

theorem kput_promote {Key Value : Type} [DecidableEq Key] [Inhabited Value]
    {s : LLZXLruKCache Key Value} {key : Key} {value : Value}
    (h : (LLZXLruCache.get s.main key (default : Value)).1 = false)
    (h2 : asSizeT s.k ≤ (LLZXLruCache.getOne s.historyList key).1 + 1) :
    LLZXLruKCache.put s key value
      = { s with
          historyList := LLZXLruCache.remove (LLZXLruCache.put (LLZXLruCache.getOne s.historyList key).2 key ((LLZXLruCache.getOne s.historyList key).1 + 1)) key
          historyValueMap := mapErase (mapInsert s.historyValueMap key value) key
          main := LLZXLruCache.put (LLZXLruCache.get s.main key (default : Value)).2.2 key value } := by
  simp [LLZXLruKCache.put, h, h2]

theorem kget_in_main {Key Value : Type} [DecidableEq Key] [Inhabited Value]
    {s : LLZXLruKCache Key Value} {key : Key}
    (h : (LLZXLruCache.get s.main key (default : Value)).1 = true) :
    (LLZXLruKCache.get s key).2
      = { s with
          historyList := LLZXLruCache.put (LLZXLruCache.getOne s.historyList key).2 key ((LLZXLruCache.getOne s.historyList key).1 + 1)
          main := (LLZXLruCache.get s.main key (default : Value)).2.2 } := by
  simp [LLZXLruKCache.get, h]

theorem kget_stage {Key Value : Type} [DecidableEq Key] [Inhabited Value]
    {s : LLZXLruKCache Key Value} {key : Key}
    (h : (LLZXLruCache.get s.main key (default : Value)).1 = false)
    (h2 : ¬ asSizeT s.k ≤ (LLZXLruCache.getOne s.historyList key).1 + 1) :
    (LLZXLruKCache.get s key).2
      = { s with
          historyList := LLZXLruCache.put (LLZXLruCache.getOne s.historyList key).2 key ((LLZXLruCache.getOne s.historyList key).1 + 1)
          main := (LLZXLruCache.get s.main key (default : Value)).2.2 } := by
  simp [LLZXLruKCache.get, h, h2]

theorem kget_promote {Key Value : Type} [DecidableEq Key] [Inhabited Value]
    {s : LLZXLruKCache Key Value} {key : Key} {p : Key × Value}
    (h : (LLZXLruCache.get s.main key (default : Value)).1 = false)
    (h2 : asSizeT s.k ≤ (LLZXLruCache.getOne s.historyList key).1 + 1)
    (h3 : s.historyValueMap.find? (fun q => decide (q.1 = key)) = some p) :
    (LLZXLruKCache.get s key).2
      = { s with
          historyList := LLZXLruCache.remove (LLZXLruCache.put (LLZXLruCache.getOne s.historyList key).2 key ((LLZXLruCache.getOne s.historyList key).1 + 1)) key
          historyValueMap := mapErase s.historyValueMap key
          main := LLZXLruCache.put (LLZXLruCache.get s.main key (default : Value)).2.2 key p.2 } := by
  simp [LLZXLruKCache.get, h, h2, h3]

theorem kget_promote_none {Key Value : Type} [DecidableEq Key] [Inhabited Value]
    {s : LLZXLruKCache Key Value} {key : Key}
    (h : (LLZXLruCache.get s.main key (default : Value)).1 = false)
    (h2 : asSizeT s.k ≤ (LLZXLruCache.getOne s.historyList key).1 + 1)
    (h3 : s.historyValueMap.find? (fun q => decide (q.1 = key)) = none) :
    (LLZXLruKCache.get s key).2
      = { s with
          historyList := LLZXLruCache.put (LLZXLruCache.getOne s.historyList key).2 key ((LLZXLruCache.getOne s.historyList key).1 + 1)
          main := (LLZXLruCache.get s.main key (default : Value)).2.2 } := by
  simp [LLZXLruKCache.get, h, h2, h3]

/-- One public call on the history-gated cache preserves the
staging/tracking invariant, grows the tracker by at most one entry, and
leaves the tracker's capacity unchanged — provided the tracker is strictly
below capacity, so that its `put` cannot evict. -/
theorem kStep {Key Value : Type} [DecidableEq Key] [Inhabited Value]
    (s : LLZXLruKCache Key Value) (op : LruKOp Key Value)
    (hinv : KInvariant s)
    (hlen : (s.historyList.entries.length : Int) < s.historyList.capacity)
    (hsm : s.historyList.capacity < 2 ^ 31) :
    KInvariant (applyKOp s op) ∧
    (applyKOp s op).historyList.entries.length
      ≤ s.historyList.entries.length + 1 ∧
    (applyKOp s op).historyList.capacity = s.historyList.capacity := by
  obtain ⟨hnd, hsub, hdisj⟩ := hinv
  have hcap0 : ¬ s.historyList.capacity ≤ 0 := by omega
  have hAs : asSizeT s.historyList.capacity = s.historyList.capacity.toNat :=
    asSizeT_eq_toNat (by omega) (by omega)
  have hlt : s.historyList.entries.length < asSizeT s.historyList.capacity := by
    rw [hAs]
    omega
  cases op with
  | put key value =>
      simp only [applyKOp]
      have hh2keys : ∀ j, LLZXLruCache.hasKey
          (LLZXLruCache.getOne s.historyList key).2 j
            ↔ LLZXLruCache.hasKey s.historyList j := fun j =>
        LLZXLruCache.get_state_hasKey s.historyList key default j
      have hh2len : (LLZXLruCache.getOne s.historyList key).2.entries.length
          = s.historyList.entries.length :=
        LLZXLruCache.get_state_length s.historyList key default
      have hh2cap : (LLZXLruCache.getOne s.historyList key).2.capacity
          = s.historyList.capacity :=
        LLZXLruCache.get_state_capacity s.historyList key default
      have hcap2 : ¬ (LLZXLruCache.getOne s.historyList key).2.capacity ≤ 0 := by
        rw [hh2cap]
        exact hcap0
      have hlt2 : (LLZXLruCache.getOne s.historyList key).2.entries.length
          < asSizeT (LLZXLruCache.getOne s.historyList key).2.capacity := by
        rw [hh2len, hh2cap]
        exact hlt
      have hput_keys : ∀ j, LLZXLruCache.hasKey
          (LLZXLruCache.put (LLZXLruCache.getOne s.historyList key).2 key
            ((LLZXLruCache.getOne s.historyList key).1 + 1)) j
          ↔ LLZXLruCache.hasKey s.historyList j ∨ j = key := fun j =>
        (LLZXLruCache.hasKey_put_of_no_evict hcap2 hlt2 j).trans
          (or_congr_left (hh2keys j))
      have hput_len : (LLZXLruCache.put (LLZXLruCache.getOne s.historyList key).2
            key ((LLZXLruCache.getOne s.historyList key).1 + 1)).entries.length
          ≤ s.historyList.entries.length + 1 := by
        have := LLZXLruCache.length_put_le
          (LLZXLruCache.getOne s.historyList key).2 key
          ((LLZXLruCache.getOne s.historyList key).1 + 1)
        omega
      have hput_cap : (LLZXLruCache.put (LLZXLruCache.getOne s.historyList key).2
            key ((LLZXLruCache.getOne s.historyList key).1 + 1)).capacity
          = s.historyList.capacity := by
        rw [LLZXLruCache.put_capacity, hh2cap]
      by_cases hMain : (LLZXLruCache.get s.main key (default : Value)).1 = true
      · rw [kput_in_main hMain]
        refine ⟨⟨hnd, fun j hj => hsub j hj, ?_⟩, Nat.le_succ _, rfl⟩
        intro j hj hk
        rcases LLZXLruCache.hasKey_put_subset hk with h1 | h1
        · exact hdisj j hj
            ((LLZXLruCache.get_state_hasKey s.main key default j).mp h1)
        · exact hdisj j hj (h1.symm ▸
            (LLZXLruCache.get_fst_true_iff s.main key default).mp hMain)
      · have hMainF : (LLZXLruCache.get s.main key (default : Value)).1 = false := by
          cases hB : (LLZXLruCache.get s.main key (default : Value)).1
          · rfl
          · exact absurd hB hMain
        have hnotmain : ¬ LLZXLruCache.hasKey s.main key :=
          LLZXLruCache.not_hasKey_of_get_false hMainF
        by_cases hProm : asSizeT s.k ≤ (LLZXLruCache.getOne s.historyList key).1 + 1
        · rw [kput_promote hMainF hProm, LLZXLruCache.get_false_state hMainF]
          refine ⟨⟨?_, ?_, ?_⟩, ?_, ?_⟩
          · exact nodup_keys_mapErase _ _ (nodup_keys_mapInsert key value hnd)
          · intro j hj
            have hjne : j ≠ key := fun hje =>
              not_keyStaged_mapErase (nodup_keys_mapInsert key value hnd)
                (hje ▸ hj)
            rcases (keyStaged_mapInsert_iff _ key j value).mp
                (keyStaged_mapErase_subset hj) with h3 | h3
            · exact (LLZXLruCache.hasKey_remove_of_ne hjne).mpr
                ((hput_keys j).mpr (Or.inl (hsub j h3)))
            · exact absurd h3 hjne
          · intro j hj hk
            have hjne : j ≠ key := fun hje =>
              not_keyStaged_mapErase (nodup_keys_mapInsert key value hnd)
                (hje ▸ hj)
            have hj3 : ∃ p ∈ s.historyValueMap, p.1 = j := by
              rcases (keyStaged_mapInsert_iff _ key j value).mp
                  (keyStaged_mapErase_subset hj) with h3 | h3
              · exact h3
              · exact absurd h3 hjne
            rcases LLZXLruCache.hasKey_put_subset hk with h1 | h1
            · exact hdisj j hj3 h1
            · exact hjne h1
          · exact le_trans (LLZXLruCache.remove_length_le _ key) hput_len
          · rw [LLZXLruCache.remove_capacity, hput_cap]
        · rw [kput_stage hMainF hProm, LLZXLruCache.get_false_state hMainF]
          refine ⟨⟨?_, ?_, ?_⟩, hput_len, hput_cap⟩
          · exact nodup_keys_mapInsert key value hnd
          · intro j hj
            rcases (keyStaged_mapInsert_iff _ key j value).mp hj with h3 | h3
            · exact (hput_keys j).mpr (Or.inl (hsub j h3))
            · exact (hput_keys j).mpr (Or.inr h3)
          · intro j hj hk
            rcases (keyStaged_mapInsert_iff _ key j value).mp hj with h3 | h3
            · exact hdisj j h3 hk
            · rw [h3] at hk
              exact hnotmain hk
  | get key =>
      simp only [applyKOp]
      have hh2keys : ∀ j, LLZXLruCache.hasKey
          (LLZXLruCache.getOne s.historyList key).2 j
            ↔ LLZXLruCache.hasKey s.historyList j := fun j =>
        LLZXLruCache.get_state_hasKey s.historyList key default j
      have hh2len : (LLZXLruCache.getOne s.historyList key).2.entries.length
          = s.historyList.entries.length :=
        LLZXLruCache.get_state_length s.historyList key default
      have hh2cap : (LLZXLruCache.getOne s.historyList key).2.capacity
          = s.historyList.capacity :=
        LLZXLruCache.get_state_capacity s.historyList key default
      have hcap2 : ¬ (LLZXLruCache.getOne s.historyList key).2.capacity ≤ 0 := by
        rw [hh2cap]
        exact hcap0
      have hlt2 : (LLZXLruCache.getOne s.historyList key).2.entries.length
          < asSizeT (LLZXLruCache.getOne s.historyList key).2.capacity := by
        rw [hh2len, hh2cap]
        exact hlt
      have hput_keys : ∀ j, LLZXLruCache.hasKey
          (LLZXLruCache.put (LLZXLruCache.getOne s.historyList key).2 key
            ((LLZXLruCache.getOne s.historyList key).1 + 1)) j
          ↔ LLZXLruCache.hasKey s.historyList j ∨ j = key := fun j =>
        (LLZXLruCache.hasKey_put_of_no_evict hcap2 hlt2 j).trans
          (or_congr_left (hh2keys j))
      have hput_len : (LLZXLruCache.put (LLZXLruCache.getOne s.historyList key).2
            key ((LLZXLruCache.getOne s.historyList key).1 + 1)).entries.length
          ≤ s.historyList.entries.length + 1 := by
        have := LLZXLruCache.length_put_le
          (LLZXLruCache.getOne s.historyList key).2 key
          ((LLZXLruCache.getOne s.historyList key).1 + 1)
        omega
      have hput_cap : (LLZXLruCache.put (LLZXLruCache.getOne s.historyList key).2
            key ((LLZXLruCache.getOne s.historyList key).1 + 1)).capacity
          = s.historyList.capacity := by
        rw [LLZXLruCache.put_capacity, hh2cap]
      by_cases hMain : (LLZXLruCache.get s.main key (default : Value)).1 = true
      · rw [kget_in_main hMain]
        refine ⟨⟨hnd, ?_, ?_⟩, hput_len, hput_cap⟩
        · intro j hj
          exact (hput_keys j).mpr (Or.inl (hsub j hj))
        · intro j hj hk
          exact hdisj j hj
            ((LLZXLruCache.get_state_hasKey s.main key default j).mp hk)
      · have hMainF : (LLZXLruCache.get s.main key (default : Value)).1 = false := by
          cases hB : (LLZXLruCache.get s.main key (default : Value)).1
          · rfl
          · exact absurd hB hMain
        have hnotmain : ¬ LLZXLruCache.hasKey s.main key :=
          LLZXLruCache.not_hasKey_of_get_false hMainF
        by_cases hProm : asSizeT s.k ≤ (LLZXLruCache.getOne s.historyList key).1 + 1
        · cases hFind : s.historyValueMap.find? (fun q => decide (q.1 = key)) with
          | some p =>
              rw [kget_promote hMainF hProm hFind,
                LLZXLruCache.get_false_state hMainF]
              refine ⟨⟨?_, ?_, ?_⟩, ?_, ?_⟩
              · exact nodup_keys_mapErase _ _ hnd
              · intro j hj
                have hjne : j ≠ key := fun hje =>
                  not_keyStaged_mapErase hnd (hje ▸ hj)
                exact (LLZXLruCache.hasKey_remove_of_ne hjne).mpr
                  ((hput_keys j).mpr
                    (Or.inl (hsub j (keyStaged_mapErase_subset hj))))
              · intro j hj hk
                have hjne : j ≠ key := fun hje =>
                  not_keyStaged_mapErase hnd (hje ▸ hj)
                rcases LLZXLruCache.hasKey_put_subset hk with h1 | h1
                · exact hdisj j (keyStaged_mapErase_subset hj) h1
                · exact hjne h1
              · exact le_trans (LLZXLruCache.remove_length_le _ key) hput_len
              · rw [LLZXLruCache.remove_capacity, hput_cap]
          | none =>
              rw [kget_promote_none hMainF hProm hFind,
                LLZXLruCache.get_false_state hMainF]
              refine ⟨⟨hnd, ?_, ?_⟩, hput_len, hput_cap⟩
              · intro j hj
                exact (hput_keys j).mpr (Or.inl (hsub j hj))
              · intro j hj hk
                exact hdisj j hj hk
        · rw [kget_stage hMainF hProm, LLZXLruCache.get_false_state hMainF]
          refine ⟨⟨hnd, ?_, ?_⟩, hput_len, hput_cap⟩
          · intro j hj
            exact (hput_keys j).mpr (Or.inl (hsub j hj))
          · intro j hj hk
            exact hdisj j hj hk

/-- The staging/tracking invariant holds after any sequence of public calls
whose length fits below the tracker's remaining capacity. -/
theorem kOps_inv {Key Value : Type} [DecidableEq Key] [Inhabited Value] :
    ∀ (ops : List (LruKOp Key Value)) (s : LLZXLruKCache Key Value),
      KInvariant s →
      (s.historyList.entries.length : Int) + ops.length
        ≤ s.historyList.capacity →
      s.historyList.capacity < 2 ^ 31 →
      KInvariant (applyKOps s ops) := by
  intro ops
  induction ops with
  | nil =>
      intro s hinv _ _
      exact hinv
  | cons op rest ih =>
      intro s hinv hfuel hsm
      have hlen : (s.historyList.entries.length : Int)
          < s.historyList.capacity := by
        simp only [List.length_cons] at hfuel
        push_cast at hfuel
        omega
      obtain ⟨hinv2, hlen2, hcap2⟩ := kStep s op hinv hlen hsm
      refine ih (applyKOp s op) hinv2 ?_ (by rw [hcap2]; exact hsm)
      rw [hcap2]
      have hc : ((applyKOp s op).historyList.entries.length : Int)
          ≤ (s.historyList.entries.length : Int) + 1 := by
        exact_mod_cast hlen2
      simp only [List.length_cons] at hfuel
      push_cast at hfuel ⊢
      omega

/-- One public call on the history-gated cache preserves distinctness of the
staging keys and the staging/main disjointness, with no assumption on the
history tracker: even when the tracker's `put` evicts, nothing here depends
on the tracker's contents. -/
theorem kStepDisj {Key Value : Type} [DecidableEq Key] [Inhabited Value]
    (s : LLZXLruKCache Key Value) (op : LruKOp Key Value)
    (hnd : (s.historyValueMap.map Prod.fst).Nodup)
    (hdisj : ∀ j, LLZXLruKCache.keyStaged s j → ¬ LLZXLruCache.hasKey s.main j) :
    ((applyKOp s op).historyValueMap.map Prod.fst).Nodup ∧
    (∀ j, LLZXLruKCache.keyStaged (applyKOp s op) j →
      ¬ LLZXLruCache.hasKey (applyKOp s op).main j) := by
  cases op with
  | put key value =>
      simp only [applyKOp]
      by_cases hMain : (LLZXLruCache.get s.main key (default : Value)).1 = true
      · rw [kput_in_main hMain]
        refine ⟨hnd, ?_⟩
        intro j hj hk
        rcases LLZXLruCache.hasKey_put_subset hk with h1 | h1
        · exact hdisj j hj
            ((LLZXLruCache.get_state_hasKey s.main key default j).mp h1)
        · exact hdisj j hj (h1.symm ▸
            (LLZXLruCache.get_fst_true_iff s.main key default).mp hMain)
      · have hMainF : (LLZXLruCache.get s.main key (default : Value)).1 = false := by
          cases hB : (LLZXLruCache.get s.main key (default : Value)).1
          · rfl
          · exact absurd hB hMain
        have hnotmain : ¬ LLZXLruCache.hasKey s.main key :=
          LLZXLruCache.not_hasKey_of_get_false hMainF
        by_cases hProm : asSizeT s.k ≤ (LLZXLruCache.getOne s.historyList key).1 + 1
        · rw [kput_promote hMainF hProm, LLZXLruCache.get_false_state hMainF]
          refine ⟨nodup_keys_mapErase _ _ (nodup_keys_mapInsert key value hnd), ?_⟩
          intro j hj hk
          have hjne : j ≠ key := fun hje =>
            not_keyStaged_mapErase (nodup_keys_mapInsert key value hnd)
              (hje ▸ hj)
          have hj3 : ∃ p ∈ s.historyValueMap, p.1 = j := by
            rcases (keyStaged_mapInsert_iff _ key j value).mp
                (keyStaged_mapErase_subset hj) with h3 | h3
            · exact h3
            · exact absurd h3 hjne
          rcases LLZXLruCache.hasKey_put_subset hk with h1 | h1
          · exact hdisj j hj3 h1
          · exact hjne h1
        · rw [kput_stage hMainF hProm, LLZXLruCache.get_false_state hMainF]
          refine ⟨nodup_keys_mapInsert key value hnd, ?_⟩
          intro j hj hk
          rcases (keyStaged_mapInsert_iff _ key j value).mp hj with h3 | h3
          · exact hdisj j h3 hk
          · rw [h3] at hk
            exact hnotmain hk
  | get key =>
      simp only [applyKOp]
      by_cases hMain : (LLZXLruCache.get s.main key (default : Value)).1 = true
      · rw [kget_in_main hMain]
        refine ⟨hnd, ?_⟩
        intro j hj hk
        exact hdisj j hj
          ((LLZXLruCache.get_state_hasKey s.main key default j).mp hk)
      · have hMainF : (LLZXLruCache.get s.main key (default : Value)).1 = false := by
          cases hB : (LLZXLruCache.get s.main key (default : Value)).1
          · rfl
          · exact absurd hB hMain
        by_cases hProm : asSizeT s.k ≤ (LLZXLruCache.getOne s.historyList key).1 + 1
        · cases hFind : s.historyValueMap.find? (fun q => decide (q.1 = key)) with
          | some p =>
              rw [kget_promote hMainF hProm hFind,
                LLZXLruCache.get_false_state hMainF]
              refine ⟨nodup_keys_mapErase _ _ hnd, ?_⟩
              intro j hj hk
              have hjne : j ≠ key := fun hje =>
                not_keyStaged_mapErase hnd (hje ▸ hj)
              rcases LLZXLruCache.hasKey_put_subset hk with h1 | h1
              · exact hdisj j (keyStaged_mapErase_subset hj) h1
              · exact hjne h1
          | none =>
              rw [kget_promote_none hMainF hProm hFind,
                LLZXLruCache.get_false_state hMainF]
              exact ⟨hnd, fun j hj hk => hdisj j hj hk⟩
        · rw [kget_stage hMainF hProm, LLZXLruCache.get_false_state hMainF]
          exact ⟨hnd, fun j hj hk => hdisj j hj hk⟩

/-- Staging-key distinctness and staging/main disjointness hold after every
sequence of public calls, unconditionally. -/
theorem kOpsDisj {Key Value : Type} [DecidableEq Key] [Inhabited Value] :
    ∀ (ops : List (LruKOp Key Value)) (s : LLZXLruKCache Key Value),
      (s.historyValueMap.map Prod.fst).Nodup →
      (∀ j, LLZXLruKCache.keyStaged s j → ¬ LLZXLruCache.hasKey s.main j) →
      ((applyKOps s ops).historyValueMap.map Prod.fst).Nodup ∧
      (∀ j, LLZXLruKCache.keyStaged (applyKOps s ops) j →
        ¬ LLZXLruCache.hasKey (applyKOps s ops).main j) := by
  intro ops
  induction ops with
  | nil =>
      intro s h1 h2
      exact ⟨h1, h2⟩
  | cons op rest ih =>
      intro s h1 h2
      obtain ⟨h3, h4⟩ := kStepDisj s op h1 h2
      exact ih (applyKOp s op) h3 h4

/-! ## Claim theorems -/

/-- C1: the claim states `put(1, 10); put(1, 20); get(1)` returns
`(true, 20)`.  In the code the two-argument `get` first stores the caller's
incoming (default-initialized) value into the node via
`updateExistingNode`, so the call returns `(true, 0)` rather than
`(true, 20)`; only the element-count part of the claim holds (still one
entry). -/
theorem get_after_two_puts_returns_default :
    (LLZXLruCache.getOne
        (LLZXLruCache.put (LLZXLruCache.put
          (LLZXLruCache.mkCache 10) (1 : Nat) (10 : Nat)) 1 20) 1).1 = 0 ∧
    (LLZXLruCache.get
        (LLZXLruCache.put (LLZXLruCache.put
          (LLZXLruCache.mkCache 10) (1 : Nat) (10 : Nat)) 1 20) 1 (0 : Nat)).1
      = true ∧
    (0 : Nat) ≠ 20 ∧
    (LLZXLruCache.put (LLZXLruCache.put
        (LLZXLruCache.mkCache 10) (1 : Nat) (10 : Nat)) 1 20).entries.length
      = (LLZXLruCache.put (LLZXLruCache.mkCache 10) (1 : Nat) (10 : Nat)).entries.length := by
  decide

/-- C2: the claim states that with `k = 3` and a large `historyCapacity`,
three `put(key, v)` calls promote the key into the main cache on the third
call.  In the code `historyList_->get(key)` goes through the one-argument
`get`, which on a hit overwrites the stored count with the
default-initialized probe (`0`) and returns that `0`; the history count
therefore never exceeds `1` and the key is never promoted: after three
`put(1, 7)` calls on `LLZXLruKCache(10, 10, 3)` the main cache still has no
node for key `1`, the tracked count is `1`, and the value sits in the
staging map. -/
theorem lruK_three_puts_do_not_promote :
    LLZXLruCache.findNode
        (applyKOps (LLZXLruKCache.mkCache 10 10 3)
          [LruKOp.put (1 : Nat) (7 : Nat), LruKOp.put 1 7, LruKOp.put 1 7]).main 1
      = none ∧
    (applyKOps (LLZXLruKCache.mkCache 10 10 3)
          [LruKOp.put (1 : Nat) (7 : Nat), LruKOp.put 1 7, LruKOp.put 1 7]).historyList.entries
      = [⟨1, 1, 1⟩] ∧
    (applyKOps (LLZXLruKCache.mkCache 10 10 3)
          [LruKOp.put (1 : Nat) (7 : Nat), LruKOp.put 1 7, LruKOp.put 1 7]).historyValueMap
      = [(1, 7)] := by
  decide

/-- C5: the claim states that on an empty cache the sentinels point to each
other: `dummyHead_->next_` is the tail and `dummyTail_->prev_` is the head.
`initializeList` instead executes `dummyTail_->next_ = dummyHead_`
(line 107), leaving `dummyTail_->prev_` as an empty `weak_ptr`: the head's
next is the tail, but the tail's prev is not the head. -/
theorem initializeList_sentinels_not_mutual :
    initializeList.headNext = some SentinelPtr.dummyTail ∧
    initializeList.tailPrev = none ∧
    initializeList.tailPrev ≠ some SentinelPtr.dummyHead ∧
    initializeList.tailNext = some SentinelPtr.dummyHead := by
  decide

/-- C7: the claim states every entry's access counter starts at 1 and is
incremented on every subsequent `get` hit or `put` to an existing key.  In
the code `incrementAccessCount` is never called: after `put(1, 5)` followed
by a `get` hit and a further `put` to the same key — two accesses after
creation, so the claim predicts 3 — the counter is still 1. -/
theorem accessCount_stays_one :
    (LLZXLruCache.findNode
        (LLZXLruCache.put
          ((LLZXLruCache.get
            (LLZXLruCache.put (LLZXLruCache.mkCache 10) (1 : Nat) (5 : Nat))
            1 (0 : Nat)).2.2) 1 6) 1).map LruNode.accessCount
      = some 1 ∧
    some (1 : Nat) ≠ some 3 := by
  decide

/-- C6 counterexample: with `historyCapacity = 1` and `k = 3`,
`put(1, 11)` then `put(2, 22)` makes `historyList_` evict key `1` while its
staging entry survives: key `1` is in `historyValueMap_` but not in
`historyList_`, and the staging map has grown to 2 entries, beyond
`historyCapacity = 1`. -/
theorem staging_outlives_tracker_eviction :
    LLZXLruKCache.keyStaged
        (applyKOps (LLZXLruKCache.mkCache 10 1 3)
          [LruKOp.put (1 : Nat) (11 : Nat), LruKOp.put 2 22]) 1 ∧
    ¬ LLZXLruCache.hasKey
        (applyKOps (LLZXLruKCache.mkCache 10 1 3)
          [LruKOp.put (1 : Nat) (11 : Nat), LruKOp.put 2 22]).historyList 1 ∧
    (applyKOps (LLZXLruKCache.mkCache 10 1 3)
          [LruKOp.put (1 : Nat) (11 : Nat), LruKOp.put 2 22]).historyValueMap.length
      = 2 := by
  decide

/-- C6 amended: after any sequence of public `put`/`get` calls on a fresh
history-gated cache, no staged key is simultaneously present in the main
cache — unconditionally, for every trace, including those where the tracker
evicts; and, provided `historyCapacity` is at least the number of calls
performed (so the tracker never evicts), every key present in the staging
map is also present in the history tracker.  (Unqualified, the
staged-implies-tracked part and the boundedness consequence are false: see
the counterexample, where a tracker eviction strands a staging entry and
the staging map exceeds `historyCapacity`.) -/
theorem lruK_staging_subset_tracker_and_disjoint_main
    {Key Value : Type} [DecidableEq Key] [Inhabited Value]
    (capacity historyCapacity k : Int) (ops : List (LruKOp Key Value))
    (key : Key) :
    (LLZXLruKCache.keyStaged
        (applyKOps (LLZXLruKCache.mkCache capacity historyCapacity k
          : LLZXLruKCache Key Value) ops) key →
      ¬ LLZXLruCache.hasKey
        (applyKOps (LLZXLruKCache.mkCache capacity historyCapacity k
          : LLZXLruKCache Key Value) ops).main key) ∧
    ((ops.length : Int) ≤ historyCapacity → historyCapacity < 2 ^ 31 →
      LLZXLruKCache.keyStaged
        (applyKOps (LLZXLruKCache.mkCache capacity historyCapacity k
          : LLZXLruKCache Key Value) ops) key →
      LLZXLruCache.hasKey
        (applyKOps (LLZXLruKCache.mkCache capacity historyCapacity k
          : LLZXLruKCache Key Value) ops).historyList key) := by
  have h0nd : (((LLZXLruKCache.mkCache capacity historyCapacity k
      : LLZXLruKCache Key Value)).historyValueMap.map Prod.fst).Nodup := by
    simp [LLZXLruKCache.mkCache]
  have h0d : ∀ j, LLZXLruKCache.keyStaged
      (LLZXLruKCache.mkCache capacity historyCapacity k
        : LLZXLruKCache Key Value) j →
      ¬ LLZXLruCache.hasKey (LLZXLruKCache.mkCache capacity historyCapacity k
        : LLZXLruKCache Key Value).main j := by
    intro j hj
    obtain ⟨p, hp, h2⟩ := hj
    simp [LLZXLruKCache.mkCache] at hp
  constructor
  · intro hstaged
    exact (kOpsDisj ops
      (LLZXLruKCache.mkCache capacity historyCapacity k
        : LLZXLruKCache Key Value) h0nd h0d).2 key hstaged
  · intro hops hsm hstaged
    have h0 : KInvariant (LLZXLruKCache.mkCache capacity historyCapacity k
        : LLZXLruKCache Key Value) := by
      refine ⟨h0nd, ?_, h0d⟩
      intro j hj
      obtain ⟨p, hp, h2⟩ := hj
      simp [LLZXLruKCache.mkCache] at hp
    have hinv := kOps_inv ops
      (LLZXLruKCache.mkCache capacity historyCapacity k
        : LLZXLruKCache Key Value)
      h0 (by simpa [LLZXLruKCache.mkCache, LLZXLruCache.mkCache] using hops)
      (by simpa [LLZXLruKCache.mkCache, LLZXLruCache.mkCache] using hsm)
    exact hinv.2.1 key hstaged

/-- C6 amended witness: the disjointness part holds for the
counterexample's own tracker-evicting trace (`historyCapacity = 1`, two
puts), and with `historyCapacity = 5` the staged key 1 is also tracked. -/
theorem lruK_staging_subset_tracker_and_disjoint_main_witness :
    LLZXLruKCache.keyStaged
      (applyKOps (LLZXLruKCache.mkCache 10 1 3 : LLZXLruKCache Nat Nat)
        [LruKOp.put (1 : Nat) (11 : Nat), LruKOp.put 2 22]) 1 ∧
    ((([LruKOp.put (1 : Nat) (11 : Nat), LruKOp.put 2 22]
        : List (LruKOp Nat Nat)).length : Int) ≤ 5) ∧
    ((5 : Int) < 2 ^ 31) ∧
    LLZXLruKCache.keyStaged
      (applyKOps (LLZXLruKCache.mkCache 10 5 3 : LLZXLruKCache Nat Nat)
        [LruKOp.put (1 : Nat) (11 : Nat), LruKOp.put 2 22]) 1 ∧
    (¬ LLZXLruCache.hasKey
        (applyKOps (LLZXLruKCache.mkCache 10 1 3 : LLZXLruKCache Nat Nat)
          [LruKOp.put (1 : Nat) (11 : Nat), LruKOp.put 2 22]).main 1 ∧
     LLZXLruCache.hasKey
        (applyKOps (LLZXLruKCache.mkCache 10 5 3 : LLZXLruKCache Nat Nat)
          [LruKOp.put (1 : Nat) (11 : Nat), LruKOp.put 2 22]).historyList 1) :=
  ⟨by decide, by decide, by decide, by decide,
    (lruK_staging_subset_tracker_and_disjoint_main 10 1 3
      [LruKOp.put (1 : Nat) (11 : Nat), LruKOp.put 2 22] 1).1 (by decide),
    (lruK_staging_subset_tracker_and_disjoint_main 10 5 3
      [LruKOp.put (1 : Nat) (11 : Nat), LruKOp.put 2 22] 1).2
      (by decide) (by decide) (by decide)⟩

/-- C8: `get` on an absent key returns `found = false` and has no side
effect: the two-argument `get` leaves the caller's value and the whole cache
(`nodeMap_`, recency list, every entry) unchanged, and the one-argument
`get` returns the default value with the cache unchanged. -/
theorem get_miss_is_pure {Key Value : Type} [DecidableEq Key] [Inhabited Value]
    (c : LLZXLruCache Key Value) (key : Key) (value : Value)
    (h : LLZXLruCache.findNode c key = none) :
    LLZXLruCache.get c key value = (false, value, c) ∧
    LLZXLruCache.getOne c key = ((default : Value), c) := by
  constructor
  · exact LLZXLruCache.get_miss_eq h
  · simp [LLZXLruCache.getOne, LLZXLruCache.get, h]

/-- C8 witness: on a cache holding only key 1, `get` of the absent key 2 is
found-false and side-effect-free. -/
theorem get_miss_is_pure_witness :
    LLZXLruCache.findNode
        (LLZXLruCache.put (LLZXLruCache.mkCache 2) (1 : Nat) (10 : Nat)) 2 = none ∧
    (LLZXLruCache.get
        (LLZXLruCache.put (LLZXLruCache.mkCache 2) (1 : Nat) (10 : Nat)) 2 (5 : Nat)
      = (false, 5, LLZXLruCache.put (LLZXLruCache.mkCache 2) (1 : Nat) (10 : Nat)) ∧
     LLZXLruCache.getOne
        (LLZXLruCache.put (LLZXLruCache.mkCache 2) (1 : Nat) (10 : Nat)) 2
      = ((default : Nat), LLZXLruCache.put (LLZXLruCache.mkCache 2) (1 : Nat) (10 : Nat))) :=
  ⟨by decide, get_miss_is_pure _ 2 5 (by decide)⟩

/-- C9: when the two-argument `get(key, value&)` hits, the stored value is
overwritten with the contents the caller's argument held on entry
(`updateExistingNode`'s `setValue`), and that same value is what `get`
returns: the call returns `true` with the incoming value, and afterwards
the node for `key` holds the incoming value (access count unchanged). -/
theorem get_hit_stores_caller_value {Key Value : Type} [DecidableEq Key]
    [Inhabited Value] (c : LLZXLruCache Key Value) (key : Key) (vIn : Value)
    (node : LruNode Key Value)
    (hnd : (c.entries.map LruNode.key).Nodup)
    (h : LLZXLruCache.findNode c key = some node) :
    (LLZXLruCache.get c key vIn).1 = true ∧
    (LLZXLruCache.get c key vIn).2.1 = vIn ∧
    LLZXLruCache.findNode (LLZXLruCache.get c key vIn).2.2 key
      = some { node with value := vIn } := by
  obtain ⟨hmem, hkey⟩ := LLZXLruCache.findNode_some_mem h
  refine ⟨by simp [LLZXLruCache.get, h], by simp [LLZXLruCache.get, h], ?_⟩
  have hget2 : (LLZXLruCache.get c key vIn).2.2
      = LLZXLruCache.updateExistingNode c node vIn := by
    simp [LLZXLruCache.get, h]
  rw [hget2]
  simp only [LLZXLruCache.updateExistingNode, LLZXLruCache.findNode,
    LLZXLruCache.moveToMostRecent, LLZXLruCache.insertNode, hkey,
    List.find?_append, LLZXLruCache.find?_removeNode_self hnd, Option.none_or]
  simp [hkey]

/-- C9 witness: on a two-entry cache, a hit of key 1 with incoming value 99
returns `(true, 99)` and stores 99 over the previous 10. -/
theorem get_hit_stores_caller_value_witness :
    ((applyOps (LLZXLruCache.mkCache 3)
        [LruOp.put (1 : Nat) (10 : Nat), LruOp.put 2 20]).entries.map
          LruNode.key).Nodup ∧
    LLZXLruCache.findNode
        (applyOps (LLZXLruCache.mkCache 3)
          [LruOp.put (1 : Nat) (10 : Nat), LruOp.put 2 20]) 1
      = some ⟨1, 10, 1⟩ ∧
    ((LLZXLruCache.get (applyOps (LLZXLruCache.mkCache 3)
          [LruOp.put (1 : Nat) (10 : Nat), LruOp.put 2 20]) 1 99).1 = true ∧
     (LLZXLruCache.get (applyOps (LLZXLruCache.mkCache 3)
          [LruOp.put (1 : Nat) (10 : Nat), LruOp.put 2 20]) 1 99).2.1 = 99 ∧
     LLZXLruCache.findNode
        (LLZXLruCache.get (applyOps (LLZXLruCache.mkCache 3)
          [LruOp.put (1 : Nat) (10 : Nat), LruOp.put 2 20]) 1 99).2.2 1
      = some ⟨1, 99, 1⟩) :=
  ⟨by decide, by decide,
    get_hit_stores_caller_value _ 1 99 ⟨1, 10, 1⟩ (by decide) (by decide)⟩

/-- C3: when `put` is called with a new key while the cache holds exactly
`capacity > 0` entries, exactly one entry is evicted, namely the one
adjacent to the head sentinel (the least recently accessed): the new
recency list is the old one minus its head, with the new node appended at
the most-recently-used end, and the element count is unchanged. -/
theorem put_full_evicts_head_adjacent {Key Value : Type} [DecidableEq Key]
    [Inhabited Value] (c : LLZXLruCache Key Value) (key : Key) (value : Value)
    (hpos : 0 < c.capacity) (hsm : c.capacity < 2 ^ 31)
    (hfull : c.entries.length = asSizeT c.capacity)
    (habsent : LLZXLruCache.findNode c key = none) :
    (LLZXLruCache.put c key value).entries
      = c.entries.tail ++ [⟨key, value, 1⟩] ∧
    (LLZXLruCache.put c key value).entries.length = c.entries.length := by
  have hAs : asSizeT c.capacity = c.capacity.toNat :=
    asSizeT_eq_toNat (by omega) (by omega)
  have hlenpos : 0 < c.entries.length := by rw [hfull, hAs]; omega
  have hput : LLZXLruCache.put c key value = LLZXLruCache.addNewNode c key value := by
    unfold LLZXLruCache.put
    rw [if_neg (by omega), habsent]
  have hcond : asSizeT c.capacity ≤ c.entries.length := le_of_eq hfull.symm
  have hadd : (LLZXLruCache.addNewNode c key value).entries
      = (LLZXLruCache.evictLeastRecent c).entries ++ [⟨key, value, 1⟩] := by
    simp only [LLZXLruCache.addNewNode, LLZXLruCache.insertNode, if_pos hcond]
  have hevict : (LLZXLruCache.evictLeastRecent c).entries = c.entries.tail := by
    unfold LLZXLruCache.evictLeastRecent
    cases hE : c.entries with
    | nil => simp [hE]
    | cons hd tl => simp [LLZXLruCache.removeNode]
  constructor
  · rw [hput, hadd, hevict]
  · rw [hput, hadd, hevict]
    simp only [List.length_append, List.length_singleton, List.length_tail]
    omega

/-- C3 witness: capacity 2, after `put(1,10)`, `put(2,20)`, `get(1)`, the
overflowing `put(3,30)` evicts exactly key 2 (the head-adjacent entry) and
keeps keys 1 and 3. -/
theorem put_full_evicts_head_adjacent_witness :
    0 < (applyOps (LLZXLruCache.mkCache 2)
        [LruOp.put (1 : Nat) (10 : Nat), LruOp.put 2 20, LruOp.getOne 1]).capacity ∧
    (applyOps (LLZXLruCache.mkCache 2)
        [LruOp.put (1 : Nat) (10 : Nat), LruOp.put 2 20, LruOp.getOne 1]).capacity
      < 2 ^ 31 ∧
    (applyOps (LLZXLruCache.mkCache 2)
        [LruOp.put (1 : Nat) (10 : Nat), LruOp.put 2 20, LruOp.getOne 1]).entries.length
      = asSizeT (applyOps (LLZXLruCache.mkCache 2)
        [LruOp.put (1 : Nat) (10 : Nat), LruOp.put 2 20, LruOp.getOne 1]).capacity ∧
    LLZXLruCache.findNode (applyOps (LLZXLruCache.mkCache 2)
        [LruOp.put (1 : Nat) (10 : Nat), LruOp.put 2 20, LruOp.getOne 1]) 3 = none ∧
    ((LLZXLruCache.put (applyOps (LLZXLruCache.mkCache 2)
        [LruOp.put (1 : Nat) (10 : Nat), LruOp.put 2 20, LruOp.getOne 1]) 3 30).entries
      = (applyOps (LLZXLruCache.mkCache 2)
        [LruOp.put (1 : Nat) (10 : Nat), LruOp.put 2 20, LruOp.getOne 1]).entries.tail
        ++ [⟨3, 30, 1⟩] ∧
     (LLZXLruCache.put (applyOps (LLZXLruCache.mkCache 2)
        [LruOp.put (1 : Nat) (10 : Nat), LruOp.put 2 20, LruOp.getOne 1]) 3 30).entries.length
      = (applyOps (LLZXLruCache.mkCache 2)
        [LruOp.put (1 : Nat) (10 : Nat), LruOp.put 2 20, LruOp.getOne 1]).entries.length) :=
  ⟨by decide, by decide, by decide, by decide,
    put_full_evicts_head_adjacent _ 3 30 (by decide) (by decide) (by decide)
      (by decide)⟩

/-- C4: for every capacity `C` in the `int` range and every finite sequence
of `put`, `get` and `remove` calls starting from a fresh cache, the element
count stays between `0` and `C` (at most `C.toNat`; in particular `0` when
`C ≤ 0`, so such a cache never retains anything). -/
theorem capacity_bound_all_traces {Key Value : Type} [DecidableEq Key]
    [Inhabited Value] (C : Int) (hsm : C < 2 ^ 31)
    (ops : List (LruOp Key Value)) :
    (applyOps (LLZXLruCache.mkCache C) ops).entries.length ≤ C.toNat := by
  suffices h : ∀ (l : List (LruOp Key Value)) (c : LLZXLruCache Key Value),
      c.capacity = C → c.entries.length ≤ C.toNat →
      (applyOps c l).entries.length ≤ C.toNat by
    exact h ops (LLZXLruCache.mkCache C) rfl (by simp [LLZXLruCache.mkCache])
  intro l
  induction l with
  | nil => intro c hcap hinv; exact hinv
  | cons op rest ih =>
      intro c hcap hinv
      have h1 : (applyOp c op).capacity = C := by rw [applyOp_capacity, hcap]
      have h2 : (applyOp c op).entries.length ≤ C.toNat := by
        subst hcap
        exact applyOp_length_bound op hsm hinv
      exact ih (applyOp c op) h1 h2

/-- C4 witness: capacity 2, a mixed trace of puts, gets and removes keeps
the element count at most 2. -/
theorem capacity_bound_all_traces_witness :
    (2 : Int) < 2 ^ 31 ∧
    (applyOps (LLZXLruCache.mkCache 2)
        [LruOp.put (1 : Nat) (10 : Nat), LruOp.put 2 20, LruOp.put 3 30,
         LruOp.getOne 1, LruOp.remove 2, LruOp.put 4 40,
         LruOp.get 1 5]).entries.length ≤ (2 : Int).toNat :=
  ⟨by decide, capacity_bound_all_traces 2 (by decide) _⟩

end LLZXCache
